import Mathlib

/-!
Shallow embedding of the PIV (Particle Image Velocimetry) engine of the
fiji/PIV_analyser repository.  The repository's visible source is the
orchestration script `scripts/run_PIV_Analysis.py`; the engine it drives
(the `PIV_analyser` plugin: windowing, normalized cross-correlation,
peak finding, field assembly, color mapping, and the run state machine)
is not part of the visible sources, so every component below is modelled
from the specification's component contracts (spec.md sections 3 to 7).
-/

namespace PIV

/-- Modelled from the spec: an Image is a 2-D array of scalar intensity
samples, width times height; `px x y` is the intensity at column `x`,
row `y`.  Intensities are represented as rational numbers. -/
structure Image where
  width : Nat
  height : Nat
  px : Nat → Nat → ℚ

/-- Modelled from the spec: the error taxonomy of section 7. -/
inductive PivError where
  | dimensionMismatch
  | invalidWindowSize
  | cancelled
deriving DecidableEq

/-- Modelled from the spec: a WindowGrid, the tile-grid extent together
with the ordered (raster-order) tile coordinate sequence. -/
structure Grid where
  rows : Nat
  cols : Nat
  tiles : List (Nat × Nat)
deriving DecidableEq

/-- All tile coordinates `(r, c)` with `r < rows`, `c < cols`, enumerated
in raster order: row-major, top-to-bottom, left-to-right. -/
def rasterTiles (rows cols : Nat) : List (Nat × Nat) :=
  (List.range rows).flatMap fun r => (List.range cols).map fun c => (r, c)

/-- Modelled from the spec: the Windower (section 4.1).  Fails with
`dimensionMismatch` when the two images differ in size, with
`invalidWindowSize` when the window size is zero or exceeds either image
dimension; otherwise it yields the tile grid, dropping any trailing
partial row or column (floor division of the image extents). -/
def windower (a b : Image) (wsz : Nat) : Except PivError Grid :=
  if a.width ≠ b.width ∨ a.height ≠ b.height then
    .error .dimensionMismatch
  else if wsz = 0 ∨ a.width < wsz ∨ a.height < wsz then
    .error .invalidWindowSize
  else
    .ok ⟨a.height / wsz, a.width / wsz, rasterTiles (a.height / wsz) (a.width / wsz)⟩

/-- The fixed-size sub-image of `img` at tile `(r, c)` for window edge `w`:
`patch img w r c x y` is the intensity at column `c*w + x`, row `r*w + y`. -/
def patch (img : Image) (w r c : Nat) : Nat → Nat → ℚ :=
  fun x y => img.px (c * w + x) (r * w + y)

/-- Mean intensity of a `w` by `w` patch. -/
def patchMean (w : Nat) (pa : Nat → Nat → ℚ) : ℚ :=
  (∑ p ∈ Finset.range w ×ˢ Finset.range w, pa p.1 p.2) / ((w : ℚ) ^ 2)

/-- Total squared deviation from the mean of a `w` by `w` patch; zero
exactly for patches of uniform intensity. -/
def patchVar (w : Nat) (pa : Nat → Nat → ℚ) : ℚ :=
  ∑ p ∈ Finset.range w ×ˢ Finset.range w, (pa p.1 p.2 - patchMean w pa) ^ 2

/-- The points of a `w` by `w` window that remain inside the window after
being displaced by `(sx, sy)`: the overlap region of the two patches at
that relative shift. -/
def overlapPts (w : Nat) (sx sy : ℤ) : Finset (Nat × Nat) :=
  (Finset.range w ×ˢ Finset.range w).filter fun p =>
    0 ≤ (p.1 : ℤ) + sx ∧ (p.1 : ℤ) + sx < (w : ℤ) ∧
    0 ≤ (p.2 : ℤ) + sy ∧ (p.2 : ℤ) + sy < (w : ℤ)

/-- Frame-A samples of a patch, as a function on overlap points. -/
def aSamples (pa : Nat → Nat → ℚ) : Nat × Nat → ℚ :=
  fun p => pa p.1 p.2

/-- Frame-B samples of a patch displaced by `(sx, sy)`. -/
def bSamples (pb : Nat → Nat → ℚ) (sx sy : ℤ) : Nat × Nat → ℚ :=
  fun p => pb ((p.1 : ℤ) + sx).toNat ((p.2 : ℤ) + sy).toNat

/-- Samples with the local mean over `O` subtracted. -/
def centered (O : Finset (Nat × Nat)) (f : Nat × Nat → ℚ) : Nat × Nat → ℚ :=
  fun p => f p - (∑ q ∈ O, f q) / (O.card : ℚ)

/-- Total squared deviation of `f` over `O`. -/
def sumSq (O : Finset (Nat × Nat)) (f : Nat × Nat → ℚ) : ℚ :=
  ∑ p ∈ O, centered O f p ^ 2

/-- Covariance sum of two mean-centered sample sets over `O`. -/
def covSum (O : Finset (Nat × Nat)) (f g : Nat × Nat → ℚ) : ℚ :=
  ∑ p ∈ O, centered O f p * centered O g p

/-- Modelled from the spec: the Correlator score (section 4.2), a
normalized cross-correlation between the two patches at relative shift
`(sx, sy)`: local means are subtracted and the covariance is divided by
the deviation magnitudes.  To keep the score rational it is the signed
square of the textbook coefficient, `cov * |cov| / (va * vb)`, a strictly
monotone function of `cov / sqrt (va * vb)`, so its ordering, its range
`[-1, 1]` and its zero set agree with the textbook coefficient.  When a
patch has no variation over the overlap the score is zero. -/
def nccScore (w : Nat) (pa pb : Nat → Nat → ℚ) (sx sy : ℤ) : ℚ :=
  if sumSq (overlapPts w sx sy) (aSamples pa) = 0 ∨
      sumSq (overlapPts w sx sy) (bSamples pb sx sy) = 0 then 0
  else
    covSum (overlapPts w sx sy) (aSamples pa) (bSamples pb sx sy) *
        |covSum (overlapPts w sx sy) (aSamples pa) (bSamples pb sx sy)| /
      (sumSq (overlapPts w sx sy) (aSamples pa) *
        sumSq (overlapPts w sx sy) (bSamples pb sx sy))

/-- Modelled from the spec: the CorrelationSurface of a tile pair, a
`(2*w-1)` by `(2*w-1)` array of correlation scores; entry `(i, j)`
holds the score at relative shift `(i - (w-1), j - (w-1))`. -/
def corrSurface (w : Nat) (pa pb : Nat → Nat → ℚ) : Nat → Nat → ℚ :=
  fun i j => nccScore w pa pb ((i : ℤ) - ((w : ℤ) - 1)) ((j : ℤ) - ((w : ℤ) - 1))

/-- Index of the first strict maximum of `f` over `b :: xs` (the integer
peak search of the PeakFinder, earliest index winning ties). -/
def bestIndex (f : Nat × Nat → ℚ) : List (Nat × Nat) → Nat × Nat → Nat × Nat
  | [], b => b
  | p :: rest, b => bestIndex f rest (if f b < f p then p else b)

/-- Modelled from the spec: the integer-pixel location of the maximum
correlation score, searched in raster order over the whole surface. -/
def peakIndex (w : Nat) (surf : Nat → Nat → ℚ) : Nat × Nat :=
  bestIndex (fun p => surf p.1 p.2) (rasterTiles (2 * w - 1) (2 * w - 1)) (0, 0)

/-- Modelled from the spec: the three-point parabolic sub-pixel fit
through the peak and its two axis neighbors; zero offset when the fit
degenerates. -/
def parabolicOffset (cm c0 cp : ℚ) : ℚ :=
  let d := cm - 2 * c0 + cp
  if d = 0 then 0 else (cm - cp) / (2 * d)

/-- Modelled from the spec: sub-pixel refinement along one axis.  The
refinement runs only when interpolation is enabled and the peak has a
neighbor on both sides (`0 < i` and `i + 1 < n`); on the surface boundary
the integer location is kept and no sample outside `[0, n)` is read. -/
def refineAxis (n i : Nat) (f : Nat → ℚ) (interp : Bool) : ℚ :=
  if interp = true ∧ 0 < i ∧ i + 1 < n then
    (i : ℚ) + parabolicOffset (f (i - 1)) (f i) (f (i + 1))
  else (i : ℚ)

/-- Peak height clipped to the correlator's valid output range `[-1, 1]`. -/
def clip1 (q : ℚ) : ℚ := max (-1) (min 1 q)

/-- Modelled from the spec: the PeakFinder (section 4.3).  Returns
`(dx, dy, peak height)`: the (possibly sub-pixel refined) displacement of
frame B relative to frame A, centered so that surface index `w - 1` is
displacement zero, and the clipped score at the integer peak. -/
def peakFind (w : Nat) (surf : Nat → Nat → ℚ) (interp : Bool) : ℚ × ℚ × ℚ :=
  (refineAxis (2 * w - 1) (peakIndex w surf).1
      (fun i => surf i (peakIndex w surf).2) interp - ((w : ℚ) - 1),
   refineAxis (2 * w - 1) (peakIndex w surf).2
      (fun j => surf (peakIndex w surf).1 j) interp - ((w : ℚ) - 1),
   clip1 (surf (peakIndex w surf).1 (peakIndex w surf).2))

/-- Modelled from the spec: one tile's processing, Correlator then
PeakFinder.  A degenerate tile pair (a patch of zero variance, where
correlation is undefined) is absorbed locally as the zero vector with
peak height zero instead of failing (sections 4.2 and 7). -/
def processTile (a b : Image) (w r c : Nat) (interp : Bool) : ℚ × ℚ × ℚ :=
  if patchVar w (patch a w r c) = 0 ∨ patchVar w (patch b w r c) = 0 then (0, 0, 0)
  else peakFind w (corrSurface w (patch a w r c) (patch b w r c)) interp

/-- Modelled from the spec: the VelocityField output, two dense arrays
U and V indexed by tile grid position plus the parallel confidence
array H (named `hgt` here). -/
structure FieldSet where
  rows : Nat
  cols : Nat
  u : List (List ℚ)
  v : List (List ℚ)
  hgt : List (List ℚ)
deriving DecidableEq

/-- Splits a flat list into `rows` consecutive chunks of `cols` entries:
the reshaping step of the FieldAssembler. -/
def chunkRows {α : Type} : Nat → Nat → List α → List (List α)
  | 0, _, _ => []
  | rows + 1, cols, xs => xs.take cols :: chunkRows rows cols (xs.drop cols)

/-- Modelled from the spec: the FieldAssembler (section 4.4), pure data
reshaping of the raster-ordered per-tile results into the three dense
arrays U, V, H. -/
def assemble (rows cols : Nat) (res : List (ℚ × ℚ × ℚ)) : FieldSet :=
  ⟨rows, cols,
   chunkRows rows cols (res.map fun t => t.1),
   chunkRows rows cols (res.map fun t => t.2.1),
   chunkRows rows cols (res.map fun t => t.2.2)⟩

/-- Modelled from the spec: one full run of the core pipeline, Windower
then per-tile Correlator and PeakFinder in raster order, then
FieldAssembler (sections 4.6 and 5). -/
def runEngine (a b : Image) (w : Nat) (interp : Bool) : Except PivError FieldSet :=
  (windower a b w).map fun g =>
    assemble g.rows g.cols (g.tiles.map fun t => processTile a b w t.1 t.2 interp)

/-- Total accessor for a dense 2-D array entry, zero out of range. -/
def entry (m : List (List ℚ)) (r c : Nat) : ℚ := (m.getD r []).getD c 0

/-- The fields of a run result, with an empty placeholder for failed runs. -/
def outFields (e : Except PivError FieldSet) : FieldSet :=
  e.toOption.getD ⟨0, 0, [], [], []⟩

/-- The image `a` translated by `(k, l)`: content moves `k` pixels along
x and `l` pixels along y, uncovered border pixels are filled with zero. -/
def shiftImage (a : Image) (k l : ℤ) : Image :=
  ⟨a.width, a.height, fun x y =>
    if 0 ≤ (x : ℤ) - k ∧ (x : ℤ) - k < (a.width : ℤ) ∧
       0 ≤ (y : ℤ) - l ∧ (y : ℤ) - l < (a.height : ℤ) then
      a.px ((x : ℤ) - k).toNat ((y : ℤ) - l).toNat
    else 0⟩

/-- Tile `(r, c)` is interior for translation `(k, l)`: the tile region
translated back by `(k, l)` stays inside the image, so none of its pixels
come from the border fill. -/
def interiorTile (a : Image) (w r c : Nat) (k l : ℤ) : Prop :=
  0 ≤ (c * w : ℤ) - k ∧ (c * w : ℤ) + w - k ≤ (a.width : ℤ) ∧
  0 ≤ (r * w : ℤ) - l ∧ (r * w : ℤ) + w - l ≤ (a.height : ℤ)

/-- A 2 by 2 checkerboard test image, used as a concrete non-degenerate
input. -/
def chk : Image := ⟨2, 2, fun x y => if (x + y) % 2 = 0 then 0 else 1⟩

/-- Modelled from the spec: the PivEngine state machine (section 4.6),
`Unconfigured, Configured, Completed, Failed` (the transient `Running`
state is subsumed into the `runState` step). -/
inductive EngineState where
  | unconfigured
  | configured (a b : Image) (wsz : Nat) (interp : Bool)
  | completed (fields : FieldSet)
  | failed (e : PivError)

/-- Modelled from the spec: atomic configuration; entry to `configured`
requires the two frames to be dimension-matched, otherwise the engine
moves to `failed` with `dimensionMismatch`. -/
def configure (a b : Image) (wsz : Nat) (interp : Bool) : EngineState :=
  if a.width ≠ b.width ∨ a.height ≠ b.height then .failed .dimensionMismatch
  else .configured a b wsz interp

/-- Modelled from the spec: one `run` step of the engine.  A configured
engine runs the pipeline and moves to `completed` or `failed`; `failed`
is terminal, and an unconfigured engine stays where it is. -/
def runState : EngineState → EngineState
  | .configured a b wsz interp =>
      match runEngine a b wsz interp with
      | .ok fs => .completed fs
      | .error e => .failed e
  | s => s

/-- Modelled from the spec: `getOutputs` is valid only in `Completed`;
no other state returns output artifacts. -/
def getOutputs : EngineState → Option FieldSet
  | .completed fs => some fs
  | _ => none

/-- Modelled from the spec: the two-argument arctangent used by the
ColorMapper, the angle of the vector `(x, y)` in `(-pi, pi]`. -/
noncomputable def atan2 (y x : ℝ) : ℝ :=
  if 0 < x then Real.arctan (y / x)
  else if x < 0 then
    if 0 ≤ y then Real.arctan (y / x) + Real.pi else Real.arctan (y / x) - Real.pi
  else if 0 < y then Real.pi / 2
  else if y < 0 then -(Real.pi / 2)
  else 0

/-- Modelled from the spec: the hue of a displacement vector `(u, v)`,
`atan2 (V, U)` mapped to degrees in `[0, 360)` (section 4.5, Contract A). -/
noncomputable def hueDeg (u v : ℚ) : ℝ :=
  let a := atan2 (v : ℝ) (u : ℝ) * (180 / Real.pi)
  if a < 0 then a + 360 else a

/-- Modelled from the spec: the hue channel of the ColorMapper's output
image: pixel `(r, c)` carries the hue of the vector `(U r c, V r c)`. -/
noncomputable def hueField (U V : Nat → Nat → ℚ) : Nat → Nat → ℝ :=
  fun r c => hueDeg (U r c) (V r c)

/-- Modelled from the spec: the reference color wheel (section 4.5,
Contract B).  Each pixel inside the circle inscribed in the raster is
colored by the hue of the direction from the raster center to the pixel,
together with its normalized squared distance from the center; pixels
outside the circle are the fixed background `none`. -/
noncomputable def colorCircle (size : Nat) : Nat → Nat → Option (ℝ × ℚ) :=
  fun x y =>
    let cx : ℚ := (size : ℚ) / 2
    let dx : ℚ := (x : ℚ) - cx
    let dy : ℚ := (y : ℚ) - cx
    if dx ^ 2 + dy ^ 2 ≤ cx ^ 2 then some (hueDeg dx dy, (dx ^ 2 + dy ^ 2) / cx ^ 2)
    else none

/-- Modelled from the spec: `getColorWheel(size)`, callable at any time,
stateless: the wheel depends only on the requested raster size, never on
the engine state or any computed field. -/
noncomputable def getColorWheel (st : EngineState) (size : Nat) : Nat → Nat → Option (ℝ × ℚ) :=
  match st with
  | _ => colorCircle size

/-- Modelled from the spec: one output artifact of a run: a scalar field
(U, V or H) or the color-coded visualization. -/
inductive Artifact where
  | scalarField (m : List (List ℚ))
  | colorImage (hue : Nat → Nat → ℝ)

/-- Modelled from the spec: the four output artifacts of a successful
run in their fixed positional order: U, V, peak height, color image. -/
noncomputable def execOutputs (a b : Image) (w : Nat) (interp : Bool) :
    Except PivError (List Artifact) :=
  (runEngine a b w interp).map fun fs =>
    [.scalarField fs.u, .scalarField fs.v, .scalarField fs.hgt,
     .colorImage (hueField (entry fs.u) (entry fs.v))]

/-- The observable outcome of `exec`: the returned artifacts and the
list of artifacts pushed to the display. -/
structure ExecResult where
  outputs : Except PivError (List Artifact)
  displayed : List Artifact

/-- Modelled from the spec: `exec showResults` of the orchestrator; the
boolean argument only selects whether the computed artifacts are also
displayed, it plays no part in computing them. -/
noncomputable def execRun (a b : Image) (w : Nat) (interp showResults : Bool) : ExecResult :=
  let out := execOutputs a b w interp
  ⟨out, if showResults then out.toOption.getD [] else []⟩

instance {ε α : Type} [DecidableEq ε] [DecidableEq α] : DecidableEq (Except ε α) := fun x y =>
  match x, y with
  | .ok a, .ok b =>
      if h : a = b then isTrue (by rw [h]) else isFalse fun hh => h (Except.ok.inj hh)
  | .error e, .error f =>
      if h : e = f then isTrue (by rw [h]) else isFalse fun hh => h (Except.error.inj hh)
  | .ok _, .error _ => isFalse fun hh => Except.noConfusion hh
  | .error _, .ok _ => isFalse fun hh => Except.noConfusion hh

theorem rasterTiles_succ (rows cols : Nat) :
    rasterTiles (rows + 1) cols =
      rasterTiles rows cols ++ (List.range cols).map (fun c => (rows, c)) := by
  rw [rasterTiles, rasterTiles, List.range_succ, List.flatMap_append]
  simp

theorem rasterTiles_length (rows cols : Nat) :
    (rasterTiles rows cols).length = rows * cols := by
  induction rows with
  | zero => simp [rasterTiles]
  | succ n ih =>
      rw [rasterTiles_succ, List.length_append, ih, List.length_map, List.length_range,
        Nat.succ_mul]

theorem mem_rasterTiles (rows cols : Nat) (p : Nat × Nat) :
    p ∈ rasterTiles rows cols ↔ p.1 < rows ∧ p.2 < cols := by
  obtain ⟨r, c⟩ := p
  simp only [rasterTiles, List.mem_flatMap, List.mem_map, List.mem_range, Prod.mk.injEq]
  constructor
  · rintro ⟨r', hr', c', hc', rfl, rfl⟩
    exact ⟨hr', hc'⟩
  · rintro ⟨hr, hc⟩
    exact ⟨r, hr, c, hc, rfl, rfl⟩

theorem rasterTiles_getElem (rows cols r c : Nat) (hr : r < rows) (hc : c < cols) :
    (rasterTiles rows cols)[r * cols + c]? = some (r, c) := by
  induction rows with
  | zero => omega
  | succ n ih =>
      rw [rasterTiles_succ]
      rcases Nat.lt_succ_iff_lt_or_eq.mp hr with h | h
      · rw [List.getElem?_append_left]
        · exact ih h
        · rw [rasterTiles_length]
          have h1 : (r + 1) * cols ≤ n * cols := Nat.mul_le_mul_right _ h
          have h2 : r * cols + c < (r + 1) * cols := by rw [Nat.succ_mul]; omega
          omega
      · subst h
        rw [List.getElem?_append_right (by rw [rasterTiles_length]; omega)]
        rw [rasterTiles_length, Nat.add_sub_cancel_left, List.getElem?_map,
          List.getElem?_range hc]
        rfl

theorem length_chunkRows {α : Type} (rows cols : Nat) (xs : List α) :
    (chunkRows rows cols xs).length = rows := by
  induction rows generalizing xs with
  | zero => rfl
  | succ n ih => rw [chunkRows, List.length_cons, ih]

theorem chunkRows_getD {α : Type} (rows cols r : Nat) (xs : List α) (hr : r < rows) :
    (chunkRows rows cols xs).getD r [] = (xs.drop (r * cols)).take cols := by
  induction rows generalizing r xs with
  | zero => omega
  | succ n ih =>
      cases r with
      | zero => simp [chunkRows]
      | succ m =>
          rw [chunkRows]
          rw [List.getD_cons_succ, ih m _ (Nat.lt_of_succ_lt_succ hr), List.drop_drop]
          have : cols + m * cols = (m + 1) * cols := by ring
          rw [this]

theorem chunkRows_row_length {α : Type} (rows cols r : Nat) (xs : List α)
    (hr : r < rows) (hlen : rows * cols ≤ xs.length) :
    ((chunkRows rows cols xs).getD r []).length = cols := by
  rw [chunkRows_getD rows cols r xs hr, List.length_take, List.length_drop]
  have h1 : r * cols + cols ≤ rows * cols := by
    rw [← Nat.succ_mul]; exact Nat.mul_le_mul_right _ hr
  omega

theorem entry_chunkRows (rows cols r c : Nat) (xs : List ℚ) (hr : r < rows) (hc : c < cols) :
    entry (chunkRows rows cols xs) r c = xs.getD (r * cols + c) 0 := by
  rw [entry, chunkRows_getD rows cols r xs hr]
  rw [List.getD_eq_getElem?_getD, List.getD_eq_getElem?_getD,
    List.getElem?_take, if_pos hc, List.getElem?_drop]

theorem getD_map_raster (rows cols r c : Nat) (g : Nat × Nat → ℚ)
    (hr : r < rows) (hc : c < cols) :
    ((rasterTiles rows cols).map g).getD (r * cols + c) 0 = g (r, c) := by
  rw [List.getD_eq_getElem?_getD, List.getElem?_map,
    rasterTiles_getElem rows cols r c hr hc]
  rfl

theorem bestIndex_mem (f : Nat × Nat → ℚ) (xs : List (Nat × Nat)) :
    ∀ b, bestIndex f xs b ∈ b :: xs := by
  induction xs with
  | nil => intro b; simp [bestIndex]
  | cons p rest ih =>
      intro b
      rw [bestIndex]
      rcases List.mem_cons.mp (ih (if f b < f p then p else b)) with h | h
      · rw [h]
        split
        · simp
        · simp
      · simp [List.mem_cons, h]

theorem le_bestIndex (f : Nat × Nat → ℚ) (xs : List (Nat × Nat)) :
    ∀ b q, q ∈ b :: xs → f q ≤ f (bestIndex f xs b) := by
  induction xs with
  | nil =>
      intro b q hq
      rw [List.mem_singleton.mp hq]
      rw [bestIndex]
  | cons p rest ih =>
      intro b q hq
      rw [bestIndex]
      have hstep : f b ≤ f (if f b < f p then p else b) ∧ f p ≤ f (if f b < f p then p else b) := by
        split
        · exact ⟨le_of_lt (by assumption), le_refl _⟩
        · exact ⟨le_refl _, not_lt.mp (by assumption)⟩
      rcases List.mem_cons.mp hq with h | h
      · subst h
        exact le_trans hstep.1 (ih _ _ (List.mem_cons_self _ _))
      · rcases List.mem_cons.mp h with h2 | h2
        · subst h2
          exact le_trans hstep.2 (ih _ _ (List.mem_cons_self _ _))
        · exact ih _ q (List.mem_cons_of_mem _ h2)

theorem bestIndex_eq_of_strict (f : Nat × Nat → ℚ) (xs : List (Nat × Nat)) :
    ∀ b p, p ∈ b :: xs → (∀ q ∈ b :: xs, q = p ∨ f q < f p) →
      bestIndex f xs b = p := by
  induction xs with
  | nil =>
      intro b p hp _
      rw [bestIndex]
      exact (List.mem_singleton.mp hp).symm
  | cons a rest ih =>
      intro b p hp hstr
      rw [bestIndex]
      apply ih
      · rcases List.mem_cons.mp hp with h | h
        · subst h
          rcases hstr a (by simp) with ha | ha
          · rw [ha]
            split <;> simp
          · rw [if_neg (not_lt.mpr (le_of_lt ha))]
            simp
        · rcases List.mem_cons.mp h with h2 | h2
          · subst h2
            rcases hstr b (by simp) with hb | hb
            · rw [hb]
              split <;> simp
            · rw [if_pos hb]
              simp
          · simp [h2]
      · intro q hq
        rcases List.mem_cons.mp hq with h | h
        · subst h
          split
          · exact hstr a (by simp)
          · exact hstr b (by simp)
        · exact hstr q (by simp [h])

theorem bestIndex_congr (f g : Nat × Nat → ℚ) (xs : List (Nat × Nat)) :
    ∀ b, (∀ q ∈ b :: xs, f q = g q) → bestIndex f xs b = bestIndex g xs b := by
  induction xs with
  | nil => intro b _; rfl
  | cons p rest ih =>
      intro b hfg
      have hb := hfg b (by simp)
      have hp := hfg p (by simp)
      rw [bestIndex, bestIndex]
      by_cases hc : f b < f p
      · rw [if_pos hc, if_pos (by rw [← hb, ← hp]; exact hc)]
        exact ih p fun q hq => hfg q (by
          rcases List.mem_cons.mp hq with h | h
          · simp [h]
          · simp [h])
      · rw [if_neg hc, if_neg (by rw [← hb, ← hp]; exact hc)]
        exact ih b fun q hq => hfg q (by
          rcases List.mem_cons.mp hq with h | h
          · simp [h]
          · simp [h])

theorem peakIndex_lt (w : Nat) (hw : 0 < w) (surf : Nat → Nat → ℚ) :
    (peakIndex w surf).1 < 2 * w - 1 ∧ (peakIndex w surf).2 < 2 * w - 1 := by
  have h := bestIndex_mem (fun p => surf p.1 p.2) (rasterTiles (2 * w - 1) (2 * w - 1)) (0, 0)
  rw [← peakIndex] at h
  rcases List.mem_cons.mp h with h | h
  · rw [h]
    constructor <;> (simp; omega)
  · exact (mem_rasterTiles _ _ _).mp h

theorem surf_le_peak (w : Nat) (surf : Nat → Nat → ℚ) (i j : Nat)
    (hi : i < 2 * w - 1) (hj : j < 2 * w - 1) :
    surf i j ≤ surf (peakIndex w surf).1 (peakIndex w surf).2 := by
  have h := le_bestIndex (fun p => surf p.1 p.2) (rasterTiles (2 * w - 1) (2 * w - 1))
    (0, 0) (i, j) (by
      apply List.mem_cons_of_mem
      exact (mem_rasterTiles _ _ _).mpr ⟨hi, hj⟩)
  rw [← peakIndex] at h
  exact h

theorem abs_parabolicOffset_le_half (cm c0 cp : ℚ) (h1 : cm ≤ c0) (h2 : cp ≤ c0) :
    |parabolicOffset cm c0 cp| ≤ 1 / 2 := by
  rw [parabolicOffset]
  by_cases h : cm - 2 * c0 + cp = 0
  · rw [if_pos h]
    norm_num
  · rw [if_neg h]
    have hdneg : cm - 2 * c0 + cp < 0 := lt_of_le_of_ne (by linarith) h
    rw [abs_div]
    have h2d : |2 * (cm - 2 * c0 + cp)| = 2 * |cm - 2 * c0 + cp| := by
      rw [abs_mul]
      norm_num
    rw [h2d]
    have habs : |cm - cp| ≤ |cm - 2 * c0 + cp| := by
      rw [abs_of_neg hdneg, abs_le]
      constructor <;> linarith
    have hpos : (0 : ℚ) < |cm - 2 * c0 + cp| := abs_pos.mpr h
    rw [div_le_div_iff₀ (by linarith) (by norm_num)]
    linarith

theorem refineAxis_near (n i : Nat) (f : Nat → ℚ) (interp : Bool)
    (hm : 0 < i → f (i - 1) ≤ f i) (hp : i + 1 < n → f (i + 1) ≤ f i) :
    |refineAxis n i f interp - (i : ℚ)| ≤ 1 / 2 := by
  rw [refineAxis]
  split
  · rename_i hcond
    have hb := abs_parabolicOffset_le_half (f (i - 1)) (f i) (f (i + 1))
      (hm hcond.2.1) (hp hcond.2.2)
    simpa [add_sub_cancel_left] using hb
  · simp

theorem refineAxis_congr (n i : Nat) (f g : Nat → ℚ) (interp : Bool)
    (h : ∀ j, j < n → f j = g j) (hi : i < n) :
    refineAxis n i f interp = refineAxis n i g interp := by
  rw [refineAxis, refineAxis]
  split
  · rename_i hc
    rw [h (i - 1) (by omega), h i hi, h (i + 1) hc.2.2]
  · rfl

theorem refineAxis_boundary (n i : Nat) (f : Nat → ℚ) (interp : Bool)
    (h : i = 0 ∨ i + 1 = n) : refineAxis n i f interp = (i : ℚ) := by
  rw [refineAxis, if_neg]
  rintro ⟨-, hpos, hlt⟩
  omega

theorem windower_ok (a b : Image) (w : Nat) (hw : a.width = b.width) (hh : a.height = b.height)
    (h0 : w ≠ 0) (h1 : w ≤ a.width) (h2 : w ≤ a.height) :
    windower a b w =
      .ok ⟨a.height / w, a.width / w, rasterTiles (a.height / w) (a.width / w)⟩ := by
  rw [windower, if_neg (by push_neg; exact ⟨hw, hh⟩),
    if_neg (by push_neg; exact ⟨h0, h1, h2⟩)]

theorem runEngine_valid (a b : Image) (w : Nat) (interp : Bool)
    (hw : a.width = b.width) (hh : a.height = b.height)
    (h0 : w ≠ 0) (h1 : w ≤ a.width) (h2 : w ≤ a.height) :
    runEngine a b w interp =
      .ok (assemble (a.height / w) (a.width / w)
        ((rasterTiles (a.height / w) (a.width / w)).map
          fun t => processTile a b w t.1 t.2 interp)) := by
  rw [runEngine, windower_ok a b w hw hh h0 h1 h2]
  rfl

theorem entry_assemble_raster (rows cols r c : Nat) (g : Nat × Nat → ℚ × ℚ × ℚ)
    (hr : r < rows) (hc : c < cols) :
    entry (assemble rows cols ((rasterTiles rows cols).map g)).u r c = (g (r, c)).1 ∧
    entry (assemble rows cols ((rasterTiles rows cols).map g)).v r c = (g (r, c)).2.1 ∧
    entry (assemble rows cols ((rasterTiles rows cols).map g)).hgt r c = (g (r, c)).2.2 := by
  refine ⟨?_, ?_, ?_⟩ <;>
    · rw [assemble]
      rw [entry_chunkRows rows cols r c _ hr hc, List.map_map]
      exact getD_map_raster rows cols r c _ hr hc

theorem run_entries (a b : Image) (w : Nat) (interp : Bool) (r c : Nat)
    (hw : a.width = b.width) (hh : a.height = b.height)
    (h0 : w ≠ 0) (h1 : w ≤ a.width) (h2 : w ≤ a.height)
    (hr : r < a.height / w) (hc : c < a.width / w) :
    entry (outFields (runEngine a b w interp)).u r c = (processTile a b w r c interp).1 ∧
    entry (outFields (runEngine a b w interp)).v r c = (processTile a b w r c interp).2.1 ∧
    entry (outFields (runEngine a b w interp)).hgt r c = (processTile a b w r c interp).2.2 := by
  rw [runEngine_valid a b w interp hw hh h0 h1 h2]
  have h := entry_assemble_raster (a.height / w) (a.width / w) r c
    (fun t => processTile a b w t.1 t.2 interp) hr hc
  simpa [outFields] using h

theorem tilePixel_lt_width (a : Image) (w c x : Nat)
    (hc : c < a.width / w) (hx : x < w) : c * w + x < a.width := by
  have hmul : (c + 1) * w ≤ (a.width / w) * w :=
    Nat.mul_le_mul_right _ (Nat.succ_le_of_lt hc)
  have hdiv : (a.width / w) * w ≤ a.width := Nat.div_mul_le_self a.width w
  have : c * w + x < (c + 1) * w := by rw [Nat.succ_mul]; omega
  omega

theorem bSamples_shift (a : Image) (w r c : Nat) (k l : ℤ)
    (hr : r < a.height / w) (hc : c < a.width / w) :
    ∀ p ∈ overlapPts w k l,
      bSamples (patch (shiftImage a k l) w r c) k l p = aSamples (patch a w r c) p := by
  intro p hp
  obtain ⟨x, y⟩ := p
  rw [overlapPts, Finset.mem_filter] at hp
  obtain ⟨hmem, hxk0, hxkw, hyl0, hylw⟩ := hp
  rw [Finset.mem_product, Finset.mem_range, Finset.mem_range] at hmem
  obtain ⟨hx, hy⟩ := hmem
  have hX : (((x : ℤ) + k).toNat : ℤ) = (x : ℤ) + k := Int.toNat_of_nonneg hxk0
  have hY : (((y : ℤ) + l).toNat : ℤ) = (y : ℤ) + l := Int.toNat_of_nonneg hyl0
  have hxw : c * w + x < a.width := tilePixel_lt_width a w c x hc hx
  have hyh : r * w + y < a.height := tilePixel_lt_width ⟨a.height, a.width, fun _ _ => 0⟩ w r y hr hy
  rw [bSamples, aSamples, patch, patch, shiftImage]
  simp only
  have hcond1 : (0 : ℤ) ≤ ((c * w + ((x : ℤ) + k).toNat : Nat) : ℤ) - k := by push_cast [hX]; omega
  have hcond2 : ((c * w + ((x : ℤ) + k).toNat : Nat) : ℤ) - k < (a.width : ℤ) := by
    push_cast [hX]
    have : ((c * w + x : Nat) : ℤ) < (a.width : ℤ) := by exact_mod_cast hxw
    push_cast at this
    omega
  have hcond3 : (0 : ℤ) ≤ ((r * w + ((y : ℤ) + l).toNat : Nat) : ℤ) - l := by push_cast [hY]; omega
  have hcond4 : ((r * w + ((y : ℤ) + l).toNat : Nat) : ℤ) - l < (a.height : ℤ) := by
    push_cast [hY]
    have : ((r * w + y : Nat) : ℤ) < (a.height : ℤ) := by exact_mod_cast hyh
    push_cast at this
    omega
  rw [if_pos ⟨hcond1, hcond2, hcond3, hcond4⟩]
  congr 1
  · have : ((c * w + ((x : ℤ) + k).toNat : Nat) : ℤ) - k = ((c * w + x : Nat) : ℤ) := by
      push_cast [hX]; ring
    rw [this, Int.toNat_natCast]
  · have : ((r * w + ((y : ℤ) + l).toNat : Nat) : ℤ) - l = ((r * w + y : Nat) : ℤ) := by
      push_cast [hY]; ring
    rw [this, Int.toNat_natCast]

theorem nccScore_shift_eq_one (a : Image) (w r c : Nat) (k l : ℤ)
    (hr : r < a.height / w) (hc : c < a.width / w)
    (hova : sumSq (overlapPts w k l) (aSamples (patch a w r c)) ≠ 0) :
    nccScore w (patch a w r c) (patch (shiftImage a k l) w r c) k l = 1 := by
  have hfb := bSamples_shift a w r c k l hr hc
  have hsum : ∑ q ∈ overlapPts w k l, bSamples (patch (shiftImage a k l) w r c) k l q =
      ∑ q ∈ overlapPts w k l, aSamples (patch a w r c) q :=
    Finset.sum_congr rfl hfb
  have hcent : ∀ p ∈ overlapPts w k l,
      centered (overlapPts w k l) (bSamples (patch (shiftImage a k l) w r c) k l) p =
      centered (overlapPts w k l) (aSamples (patch a w r c)) p := by
    intro p hp
    rw [centered, centered, hfb p hp, hsum]
  have hvb : sumSq (overlapPts w k l) (bSamples (patch (shiftImage a k l) w r c) k l) =
      sumSq (overlapPts w k l) (aSamples (patch a w r c)) :=
    Finset.sum_congr rfl fun p hp => by rw [hcent p hp]
  have hcov : covSum (overlapPts w k l) (aSamples (patch a w r c))
      (bSamples (patch (shiftImage a k l) w r c) k l) =
      sumSq (overlapPts w k l) (aSamples (patch a w r c)) :=
    Finset.sum_congr rfl fun p hp => by rw [hcent p hp]; ring
  have hpos : 0 < sumSq (overlapPts w k l) (aSamples (patch a w r c)) := by
    refine lt_of_le_of_ne ?_ (Ne.symm hova)
    exact Finset.sum_nonneg fun p _ => sq_nonneg _
  rw [nccScore, hvb, hcov, if_neg (by simp [hova])]
  rw [abs_of_pos hpos]
  exact div_self (by positivity)

theorem processTile_strict_peak (a b : Image) (w r c ik jl : Nat) (interp : Bool)
    (hw : 0 < w) (hikn : ik < 2 * w - 1) (hjln : jl < 2 * w - 1)
    (hva : patchVar w (patch a w r c) ≠ 0) (hvb : patchVar w (patch b w r c) ≠ 0)
    (hstrict : ∀ i j, i < 2 * w - 1 → j < 2 * w - 1 → (i, j) ≠ (ik, jl) →
      corrSurface w (patch a w r c) (patch b w r c) i j <
        corrSurface w (patch a w r c) (patch b w r c) ik jl) :
    |(processTile a b w r c interp).1 - ((ik : ℚ) - ((w : ℚ) - 1))| ≤ 1 / 2 ∧
    |(processTile a b w r c interp).2.1 - ((jl : ℚ) - ((w : ℚ) - 1))| ≤ 1 / 2 := by
  have hpk : peakIndex w (corrSurface w (patch a w r c) (patch b w r c)) = (ik, jl) := by
    apply bestIndex_eq_of_strict
    · exact List.mem_cons_of_mem _ ((mem_rasterTiles _ _ _).mpr ⟨hikn, hjln⟩)
    · intro q hq
      by_cases hqe : q = (ik, jl)
      · exact Or.inl hqe
      · refine Or.inr ?_
        have hqlt : q.1 < 2 * w - 1 ∧ q.2 < 2 * w - 1 := by
          rcases List.mem_cons.mp hq with h | h
          · rw [h]; constructor <;> (simp; omega)
          · exact (mem_rasterTiles _ _ _).mp h
        have := hstrict q.1 q.2 hqlt.1 hqlt.2 (by simpa using hqe)
        simpa using this
  rw [processTile, if_neg (by simp [hva, hvb]), peakFind, hpk]
  constructor
  · have heq : refineAxis (2 * w - 1) ik
        (fun i => corrSurface w (patch a w r c) (patch b w r c) i jl) interp -
        ((w : ℚ) - 1) - ((ik : ℚ) - ((w : ℚ) - 1)) =
        refineAxis (2 * w - 1) ik
        (fun i => corrSurface w (patch a w r c) (patch b w r c) i jl) interp - (ik : ℚ) := by
      ring
    rw [heq]
    apply refineAxis_near
    · intro hpos
      refine le_of_lt (hstrict (ik - 1) jl (by omega) hjln ?_)
      intro h
      rw [Prod.mk.injEq] at h
      omega
    · intro hlt
      refine le_of_lt (hstrict (ik + 1) jl (by omega) hjln ?_)
      intro h
      rw [Prod.mk.injEq] at h
      omega
  · have heq : refineAxis (2 * w - 1) jl
        (fun j => corrSurface w (patch a w r c) (patch b w r c) ik j) interp -
        ((w : ℚ) - 1) - ((jl : ℚ) - ((w : ℚ) - 1)) =
        refineAxis (2 * w - 1) jl
        (fun j => corrSurface w (patch a w r c) (patch b w r c) ik j) interp - (jl : ℚ) := by
      ring
    rw [heq]
    apply refineAxis_near
    · intro hpos
      refine le_of_lt (hstrict ik (jl - 1) hikn (by omega) ?_)
      intro h
      rw [Prod.mk.injEq] at h
      omega
    · intro hlt
      refine le_of_lt (hstrict ik (jl + 1) hikn (by omega) ?_)
      intro h
      rw [Prod.mk.injEq] at h
      omega

theorem runState_failed (e : PivError) : runState (.failed e) = .failed e := rfl

theorem iterate_runState_failed (e : PivError) (n : Nat) :
    runState^[n] (.failed e) = .failed e := by
  induction n with
  | zero => rfl
  | succ m ih => rw [Function.iterate_succ_apply', ih, runState_failed]

theorem atan2_smul (y x s : ℝ) (hs : 0 < s) : atan2 (s * y) (s * x) = atan2 y x := by
  have hxpos : 0 < s * x ↔ 0 < x := by
    constructor
    · intro h
      by_contra hx
      push_neg at hx
      nlinarith
    · exact fun h => mul_pos hs h
  have hxneg : s * x < 0 ↔ x < 0 := by
    constructor
    · intro h
      by_contra hx
      push_neg at hx
      nlinarith
    · exact fun h => mul_neg_of_pos_of_neg hs h
  have hynn : 0 ≤ s * y ↔ 0 ≤ y := by
    constructor
    · intro h
      by_contra hy
      push_neg at hy
      nlinarith
    · intro h
      positivity
  have hypos : 0 < s * y ↔ 0 < y := by
    constructor
    · intro h
      by_contra hy
      push_neg at hy
      nlinarith
    · exact fun h => mul_pos hs h
  have hyneg : s * y < 0 ↔ y < 0 := by
    constructor
    · intro h
      by_contra hy
      push_neg at hy
      nlinarith
    · exact fun h => mul_neg_of_pos_of_neg hs h
  have hdiv : s * y / (s * x) = y / x := mul_div_mul_left y x (ne_of_gt hs)
  rw [atan2, atan2]
  simp only [hxpos, hxneg, hynn, hypos, hyneg, hdiv]

theorem hueDeg_smul (u v s : ℚ) (hs : 0 < s) : hueDeg (s * u) (s * v) = hueDeg u v := by
  rw [hueDeg, hueDeg]
  have hcast : ((s * v : ℚ) : ℝ) = (s : ℝ) * (v : ℝ) := by push_cast; ring
  have hcast2 : ((s * u : ℚ) : ℝ) = (s : ℝ) * (u : ℝ) := by push_cast; ring
  rw [hcast, hcast2, atan2_smul (v : ℝ) (u : ℝ) (s : ℝ) (by exact_mod_cast hs)]

/-- Claim C1: for every valid configured run (two same-size images, valid
window size), the three output arrays U, V and H each have shape equal to
the Windower's computed tile-grid extent, and for every grid coordinate
`(r, c)` the entries `U[r,c]`, `V[r,c]`, `H[r,c]` are exactly the
`(dx, dy, peak height)` triple produced for the Windower's tile `(r, c)`,
which occupies position `r * cols + c` of the raster-order (row-major)
tile enumeration. -/
theorem fields_match_grid_and_raster_order (a b : Image) (w : Nat) (interp : Bool) (r c : Nat)
    (hw : a.width = b.width) (hh : a.height = b.height)
    (h0 : w ≠ 0) (h1 : w ≤ a.width) (h2 : w ≤ a.height)
    (hr : r < a.height / w) (hc : c < a.width / w) :
    (runEngine a b w interp).isOk = true ∧
    (outFields (runEngine a b w interp)).rows = a.height / w ∧
    (outFields (runEngine a b w interp)).cols = a.width / w ∧
    (outFields (runEngine a b w interp)).u.length = a.height / w ∧
    (outFields (runEngine a b w interp)).v.length = a.height / w ∧
    (outFields (runEngine a b w interp)).hgt.length = a.height / w ∧
    ((outFields (runEngine a b w interp)).u.getD r []).length = a.width / w ∧
    ((outFields (runEngine a b w interp)).v.getD r []).length = a.width / w ∧
    ((outFields (runEngine a b w interp)).hgt.getD r []).length = a.width / w ∧
    (rasterTiles (a.height / w) (a.width / w))[r * (a.width / w) + c]? = some (r, c) ∧
    entry (outFields (runEngine a b w interp)).u r c = (processTile a b w r c interp).1 ∧
    entry (outFields (runEngine a b w interp)).v r c = (processTile a b w r c interp).2.1 ∧
    entry (outFields (runEngine a b w interp)).hgt r c = (processTile a b w r c interp).2.2 := by
  have hval := runEngine_valid a b w interp hw hh h0 h1 h2
  have hentries := run_entries a b w interp r c hw hh h0 h1 h2 hr hc
  have hlen : (((rasterTiles (a.height / w) (a.width / w)).map
      fun t => processTile a b w t.1 t.2 interp).length) = (a.height / w) * (a.width / w) := by
    rw [List.length_map, rasterTiles_length]
  refine ⟨by rw [hval]; rfl, ?_, ?_, ?_, ?_, ?_, ?_, ?_, ?_,
    rasterTiles_getElem _ _ _ _ hr hc, hentries.1, hentries.2.1, hentries.2.2⟩ <;>
    rw [hval] <;>
    simp only [outFields, Except.toOption, Option.getD_some, assemble] <;>
    first
      | rfl
      | rw [length_chunkRows]
      | (rw [chunkRows_row_length] <;> first
          | exact hr
          | (rw [List.length_map, List.length_map, rasterTiles_length]))

/-- Claim C1 witness: a concrete valid run on a pair of 2 by 2 images
with window size 2. -/
theorem fields_match_grid_and_raster_order_witness :
    (runEngine ⟨2, 2, fun x y => (x : ℚ) + y⟩ ⟨2, 2, fun x y => (x : ℚ) + y⟩ 2 true).isOk = true ∧
    (outFields (runEngine ⟨2, 2, fun x y => (x : ℚ) + y⟩ ⟨2, 2, fun x y => (x : ℚ) + y⟩ 2 true)).rows = 2 / 2 ∧
    (outFields (runEngine ⟨2, 2, fun x y => (x : ℚ) + y⟩ ⟨2, 2, fun x y => (x : ℚ) + y⟩ 2 true)).cols = 2 / 2 ∧
    (outFields (runEngine ⟨2, 2, fun x y => (x : ℚ) + y⟩ ⟨2, 2, fun x y => (x : ℚ) + y⟩ 2 true)).u.length = 2 / 2 ∧
    (outFields (runEngine ⟨2, 2, fun x y => (x : ℚ) + y⟩ ⟨2, 2, fun x y => (x : ℚ) + y⟩ 2 true)).v.length = 2 / 2 ∧
    (outFields (runEngine ⟨2, 2, fun x y => (x : ℚ) + y⟩ ⟨2, 2, fun x y => (x : ℚ) + y⟩ 2 true)).hgt.length = 2 / 2 ∧
    ((outFields (runEngine ⟨2, 2, fun x y => (x : ℚ) + y⟩ ⟨2, 2, fun x y => (x : ℚ) + y⟩ 2 true)).u.getD 0 []).length = 2 / 2 ∧
    ((outFields (runEngine ⟨2, 2, fun x y => (x : ℚ) + y⟩ ⟨2, 2, fun x y => (x : ℚ) + y⟩ 2 true)).v.getD 0 []).length = 2 / 2 ∧
    ((outFields (runEngine ⟨2, 2, fun x y => (x : ℚ) + y⟩ ⟨2, 2, fun x y => (x : ℚ) + y⟩ 2 true)).hgt.getD 0 []).length = 2 / 2 ∧
    (rasterTiles (2 / 2) (2 / 2))[0 * (2 / 2) + 0]? = some (0, 0) ∧
    entry (outFields (runEngine ⟨2, 2, fun x y => (x : ℚ) + y⟩ ⟨2, 2, fun x y => (x : ℚ) + y⟩ 2 true)).u 0 0 =
      (processTile ⟨2, 2, fun x y => (x : ℚ) + y⟩ ⟨2, 2, fun x y => (x : ℚ) + y⟩ 2 0 0 true).1 ∧
    entry (outFields (runEngine ⟨2, 2, fun x y => (x : ℚ) + y⟩ ⟨2, 2, fun x y => (x : ℚ) + y⟩ 2 true)).v 0 0 =
      (processTile ⟨2, 2, fun x y => (x : ℚ) + y⟩ ⟨2, 2, fun x y => (x : ℚ) + y⟩ 2 0 0 true).2.1 ∧
    entry (outFields (runEngine ⟨2, 2, fun x y => (x : ℚ) + y⟩ ⟨2, 2, fun x y => (x : ℚ) + y⟩ 2 true)).hgt 0 0 =
      (processTile ⟨2, 2, fun x y => (x : ℚ) + y⟩ ⟨2, 2, fun x y => (x : ℚ) + y⟩ 2 0 0 true).2.2 :=
  fields_match_grid_and_raster_order ⟨2, 2, fun x y => (x : ℚ) + y⟩ ⟨2, 2, fun x y => (x : ℚ) + y⟩
    2 true 0 0 rfl rfl (by decide) (by decide) (by decide) (by decide) (by decide)

/-- Claim C3: a tile pair in which a patch has zero variance (fully
uniform intensity) yields displacement `(0, 0)` with peak height `0`, and
the run as a whole still completes successfully rather than failing. -/
theorem degenerate_tile_zero_and_run_completes (a b : Image) (w : Nat) (interp : Bool) (r c : Nat)
    (hw : a.width = b.width) (hh : a.height = b.height)
    (h0 : w ≠ 0) (h1 : w ≤ a.width) (h2 : w ≤ a.height)
    (hr : r < a.height / w) (hc : c < a.width / w)
    (hdeg : patchVar w (patch a w r c) = 0 ∨ patchVar w (patch b w r c) = 0) :
    (runEngine a b w interp).isOk = true ∧
    entry (outFields (runEngine a b w interp)).u r c = 0 ∧
    entry (outFields (runEngine a b w interp)).v r c = 0 ∧
    entry (outFields (runEngine a b w interp)).hgt r c = 0 := by
  have hval := runEngine_valid a b w interp hw hh h0 h1 h2
  have hentries := run_entries a b w interp r c hw hh h0 h1 h2 hr hc
  have hzero : processTile a b w r c interp = (0, 0, 0) := by
    rw [processTile, if_pos hdeg]
  refine ⟨by rw [hval]; rfl, ?_, ?_, ?_⟩
  · rw [hentries.1, hzero]
  · rw [hentries.2.1, hzero]
  · rw [hentries.2.2, hzero]

/-- Claim C3 witness: a pair of uniform 2 by 2 images. -/
theorem degenerate_tile_zero_witness :
    (runEngine ⟨2, 2, fun _ _ => 5⟩ ⟨2, 2, fun _ _ => 5⟩ 2 false).isOk = true ∧
    entry (outFields (runEngine ⟨2, 2, fun _ _ => 5⟩ ⟨2, 2, fun _ _ => 5⟩ 2 false)).u 0 0 = 0 ∧
    entry (outFields (runEngine ⟨2, 2, fun _ _ => 5⟩ ⟨2, 2, fun _ _ => 5⟩ 2 false)).v 0 0 = 0 ∧
    entry (outFields (runEngine ⟨2, 2, fun _ _ => 5⟩ ⟨2, 2, fun _ _ => 5⟩ 2 false)).hgt 0 0 = 0 :=
  degenerate_tile_zero_and_run_completes ⟨2, 2, fun _ _ => 5⟩ ⟨2, 2, fun _ _ => 5⟩ 2 false 0 0
    rfl rfl (by decide) (by decide) (by decide) (by decide) (by decide)
    (Or.inl (by norm_num [patchVar, patchMean, patch, Finset.sum_product,
      Finset.sum_range_succ, Finset.sum_range_zero]))

/-- Claim C4: whenever the two input frames have differing dimensions,
the engine fails with `dimensionMismatch` and stays in the `failed`
state under any number of further run steps, never reaching `completed`;
and no failed state ever returns output artifacts. -/
theorem mismatched_dims_fail_no_outputs (a b : Image) (wsz : Nat) (interp : Bool)
    (n : Nat) (e : PivError)
    (hd : a.width ≠ b.width ∨ a.height ≠ b.height) :
    configure a b wsz interp = .failed .dimensionMismatch ∧
    runState^[n] (configure a b wsz interp) = .failed .dimensionMismatch ∧
    getOutputs (runState^[n] (configure a b wsz interp)) = none ∧
    getOutputs (.failed e) = none := by
  have hconf : configure a b wsz interp = .failed .dimensionMismatch := by
    rw [configure, if_pos hd]
  have hiter := iterate_runState_failed .dimensionMismatch n
  refine ⟨hconf, ?_, ?_, rfl⟩
  · rw [hconf, hiter]
  · rw [hconf, hiter]
    rfl

/-- Claim C4 witness: a 2 by 2 frame against a 3 by 2 frame, one run
step. -/
theorem mismatched_dims_fail_witness :
    configure ⟨2, 2, fun _ _ => 0⟩ ⟨3, 2, fun _ _ => 0⟩ 2 true = .failed .dimensionMismatch ∧
    runState^[1] (configure ⟨2, 2, fun _ _ => 0⟩ ⟨3, 2, fun _ _ => 0⟩ 2 true) =
      .failed .dimensionMismatch ∧
    getOutputs (runState^[1] (configure ⟨2, 2, fun _ _ => 0⟩ ⟨3, 2, fun _ _ => 0⟩ 2 true)) = none ∧
    getOutputs (.failed .cancelled) = none :=
  mismatched_dims_fail_no_outputs ⟨2, 2, fun _ _ => 0⟩ ⟨3, 2, fun _ _ => 0⟩ 2 true 1 .cancelled
    (Or.inl (by decide))

/-- Claim C5: the Windower fails with `dimensionMismatch` exactly when
the two images differ in size, fails with `invalidWindowSize` exactly
when (the sizes match and) the window size is zero or exceeds either
image dimension, and otherwise yields the raster-order tile sequence on
the grid obtained by dropping any trailing partial row or column. -/
theorem windower_error_classification (a b : Image) (wsz : Nat) :
    (windower a b wsz = .error .dimensionMismatch ↔
      a.width ≠ b.width ∨ a.height ≠ b.height) ∧
    (windower a b wsz = .error .invalidWindowSize ↔
      (a.width = b.width ∧ a.height = b.height) ∧
        (wsz = 0 ∨ a.width < wsz ∨ a.height < wsz)) ∧
    (a.width = b.width → a.height = b.height → wsz ≠ 0 → wsz ≤ a.width → wsz ≤ a.height →
      windower a b wsz =
        .ok ⟨a.height / wsz, a.width / wsz, rasterTiles (a.height / wsz) (a.width / wsz)⟩ ∧
      (∀ p : Nat × Nat, p ∈ rasterTiles (a.height / wsz) (a.width / wsz) ↔
        p.1 < a.height / wsz ∧ p.2 < a.width / wsz) ∧
      (∀ r c : Nat, r < a.height / wsz → c < a.width / wsz →
        (rasterTiles (a.height / wsz) (a.width / wsz))[r * (a.width / wsz) + c]? =
          some (r, c))) := by
  by_cases hd : a.width ≠ b.width ∨ a.height ≠ b.height
  · rw [windower, if_pos hd]
    refine ⟨iff_of_true rfl hd, iff_of_false ?_ ?_, ?_⟩
    · intro h
      exact absurd (Except.error.inj h) (by decide)
    · rintro ⟨⟨hw, hh⟩, -⟩
      rcases hd with h | h
      · exact h hw
      · exact h hh
    · intro hw hh _ _ _
      rcases hd with h | h
      · exact absurd hw h
      · exact absurd hh h
  · push_neg at hd
    rw [windower, if_neg (by push_neg; exact hd)]
    by_cases hv : wsz = 0 ∨ a.width < wsz ∨ a.height < wsz
    · rw [if_pos hv]
      refine ⟨iff_of_false ?_ ?_, iff_of_true rfl ⟨hd, hv⟩, ?_⟩
      · intro h
        exact absurd (Except.error.inj h) (by decide)
      · rintro (h | h)
        · exact h hd.1
        · exact h hd.2
      · intro _ _ h0 h1 h2
        rcases hv with h | h | h
        · exact absurd h h0
        · omega
        · omega
    · rw [if_neg hv]
      push_neg at hv
      refine ⟨iff_of_false ?_ ?_, iff_of_false ?_ ?_, ?_⟩
      · intro h
        exact Except.noConfusion h
      · rintro (h | h)
        · exact h hd.1
        · exact h hd.2
      · intro h
        exact Except.noConfusion h
      · rintro ⟨-, h⟩
        rcases h with h | h | h
        · exact hv.1 h
        · omega
        · omega
      · intro _ _ _ _ _
        exact ⟨rfl, fun p => mem_rasterTiles _ _ p,
          fun r c hr hc => rasterTiles_getElem _ _ _ _ hr hc⟩

/-- Claim C5 witness: two matching 4 by 2 images with window size 2
produce the 1 by 2 grid and its raster enumeration. -/
theorem windower_error_classification_witness :
    windower ⟨4, 2, fun _ _ => 1⟩ ⟨4, 2, fun _ _ => 2⟩ 2 =
      .ok ⟨2 / 2, 4 / 2, rasterTiles (2 / 2) (4 / 2)⟩ ∧
    ((0, 1) ∈ rasterTiles (2 / 2) (4 / 2) ↔ 0 < 2 / 2 ∧ 1 < 4 / 2) ∧
    (rasterTiles (2 / 2) (4 / 2))[0 * (4 / 2) + 1]? = some (0, 1) := by
  have h := (windower_error_classification ⟨4, 2, fun _ _ => 1⟩ ⟨4, 2, fun _ _ => 2⟩ 2).2.2
    rfl rfl (by decide) (by decide) (by decide)
  exact ⟨h.1, h.2.1 (0, 1), h.2.2 0 1 (by decide) (by decide)⟩

/-- Claim C6: the PeakFinder never reads a sample outside the
correlation surface (its output is unchanged by arbitrary modification of
every out-of-bounds sample), and when the integer maximum lies on the
surface boundary along an axis the sub-pixel refinement for that axis is
skipped and the integer location is returned for it, under either
interpolation setting. -/
theorem peakFind_respects_bounds_and_boundary (w : Nat) (surf surf2 : Nat → Nat → ℚ)
    (interp interp2 : Bool) (hw : 0 < w)
    (hagree : ∀ i j, i < 2 * w - 1 → j < 2 * w - 1 → surf i j = surf2 i j) :
    peakFind w surf interp = peakFind w surf2 interp ∧
    ((peakIndex w surf).1 = 0 ∨ (peakIndex w surf).1 = 2 * w - 2 →
      (peakFind w surf interp2).1 = ((peakIndex w surf).1 : ℚ) - ((w : ℚ) - 1)) ∧
    ((peakIndex w surf).2 = 0 ∨ (peakIndex w surf).2 = 2 * w - 2 →
      (peakFind w surf interp2).2.1 = ((peakIndex w surf).2 : ℚ) - ((w : ℚ) - 1)) := by
  have hn : 0 < 2 * w - 1 := by omega
  have hpk : peakIndex w surf = peakIndex w surf2 := by
    apply bestIndex_congr
    intro q hq
    rcases List.mem_cons.mp hq with h | h
    · rw [h]
      exact hagree 0 0 hn hn
    · have hb := (mem_rasterTiles _ _ _).mp h
      exact hagree q.1 q.2 hb.1 hb.2
  have hlt := peakIndex_lt w hw surf
  refine ⟨?_, ?_, ?_⟩
  · rw [peakFind, peakFind, ← hpk]
    have h1 : refineAxis (2 * w - 1) (peakIndex w surf).1
        (fun i => surf i (peakIndex w surf).2) interp =
        refineAxis (2 * w - 1) (peakIndex w surf).1
        (fun i => surf2 i (peakIndex w surf).2) interp :=
      refineAxis_congr _ _ _ _ _ (fun j hj => hagree j _ hj hlt.2) hlt.1
    have h2 : refineAxis (2 * w - 1) (peakIndex w surf).2
        (fun j => surf (peakIndex w surf).1 j) interp =
        refineAxis (2 * w - 1) (peakIndex w surf).2
        (fun j => surf2 (peakIndex w surf).1 j) interp :=
      refineAxis_congr _ _ _ _ _ (fun j hj => hagree _ j hlt.1 hj) hlt.2
    rw [h1, h2, hagree _ _ hlt.1 hlt.2]
  · intro hb
    rw [peakFind]
    show refineAxis (2 * w - 1) (peakIndex w surf).1
        (fun i => surf i (peakIndex w surf).2) interp2 - ((w : ℚ) - 1) = _
    rw [refineAxis_boundary _ _ _ _ (by omega)]
  · intro hb
    rw [peakFind]
    show refineAxis (2 * w - 1) (peakIndex w surf).2
        (fun j => surf (peakIndex w surf).1 j) interp2 - ((w : ℚ) - 1) = _
    rw [refineAxis_boundary _ _ _ _ (by omega)]

/-- Claim C6 witness: a 3 by 3 surface whose maximum sits on the left
boundary, compared against a surface that differs at every out-of-bounds
sample. -/
theorem peakFind_respects_bounds_witness :
    peakFind 2 (fun i j => if i = 0 ∧ j = 1 then 3 else 0) true =
      peakFind 2 (fun i j => if i < 3 ∧ j < 3 then (if i = 0 ∧ j = 1 then 3 else 0) else 99)
        true ∧
    (peakFind 2 (fun i j => if i = 0 ∧ j = 1 then 3 else 0) false).1 =
      ((peakIndex 2 (fun i j => if i = 0 ∧ j = 1 then 3 else 0)).1 : ℚ) - ((2 : ℚ) - 1) := by
  have h := peakFind_respects_bounds_and_boundary 2
    (fun i j => if i = 0 ∧ j = 1 then 3 else 0)
    (fun i j => if i < 3 ∧ j < 3 then (if i = 0 ∧ j = 1 then 3 else 0) else 99)
    true false (by decide)
    (by
      intro i j hi hj
      show (if i = 0 ∧ j = 1 then (3 : ℚ) else 0) =
        (if i < 3 ∧ j < 3 then (if i = 0 ∧ j = 1 then (3 : ℚ) else 0) else 99)
      rw [if_pos (⟨by omega, by omega⟩ : i < 3 ∧ j < 3)])
  refine ⟨h.1, h.2.1 (Or.inl ?_)⟩
  have : peakIndex 2 (fun i j => if i = 0 ∧ j = 1 then 3 else 0) = (0, 1) := by
    apply bestIndex_eq_of_strict
    · exact List.mem_cons_of_mem _ ((mem_rasterTiles 3 3 (0, 1)).mpr (by omega))
    · intro q hq
      by_cases hqe : q = (0, 1)
      · exact Or.inl hqe
      · refine Or.inr ?_
        have hnq : ¬(q.1 = 0 ∧ q.2 = 1) := by
          intro hc
          exact hqe (Prod.ext hc.1 hc.2)
        show (if q.1 = 0 ∧ q.2 = 1 then (3 : ℚ) else 0) <
          (if (0 : Nat) = 0 ∧ (1 : Nat) = 1 then (3 : ℚ) else 0)
        rw [if_neg hnq, if_pos ⟨rfl, rfl⟩]
        norm_num
  rw [this]

/-- Claim C7: scaling a velocity field by a positive constant leaves the
hue channel of the ColorMapper's output unchanged at every pixel. -/
theorem hue_scale_invariant (U V : Nat → Nat → ℚ) (s : ℚ) (r c : Nat) (hs : 0 < s) :
    hueField (fun i j => s * U i j) (fun i j => s * V i j) r c = hueField U V r c := by
  rw [hueField, hueField]
  exact hueDeg_smul (U r c) (V r c) s hs

/-- Claim C7 witness: doubling the constant field `(1, 1)`. -/
theorem hue_scale_invariant_witness :
    (0 : ℚ) < 2 ∧
    hueField (fun i j => 2 * ((fun _ _ => (1 : ℚ)) i j))
        (fun i j => 2 * ((fun _ _ => (1 : ℚ)) i j)) 0 0 =
      hueField (fun _ _ => (1 : ℚ)) (fun _ _ => (1 : ℚ)) 0 0 :=
  ⟨by norm_num, hue_scale_invariant (fun _ _ => 1) (fun _ _ => 1) 2 0 0 (by norm_num)⟩

/-- Claim C9: generating the color wheel is deterministic and stateless:
its output is a function of the requested raster size alone, identical
across any two engine states (hence across any two calls), and equal to
the fixed wheel raster of that size. -/
theorem wheel_stateless (s1 s2 : EngineState) (size : Nat) :
    getColorWheel s1 size = getColorWheel s2 size ∧
    getColorWheel s1 size = colorCircle size := ⟨rfl, rfl⟩

/-- Claim C10: the boolean display argument of `exec` does not change the
returned artifacts: with display on or off the returned outputs are
identical. -/
theorem display_flag_no_effect (a b : Image) (w : Nat) (interp : Bool) :
    (execRun a b w interp true).outputs = (execRun a b w interp false).outputs := rfl

/-- Claim C8: a successful run returns exactly four output artifacts in
the fixed positional order: index 0 the U field, index 1 the V field,
index 2 the peak-height field, index 3 the color-coded visualization. -/
theorem outputs_fixed_positional_order (a b : Image) (w : Nat) (interp : Bool) (fs : FieldSet)
    (hok : runEngine a b w interp = .ok fs) :
    execOutputs a b w interp =
      .ok [.scalarField fs.u, .scalarField fs.v, .scalarField fs.hgt,
        .colorImage (hueField (entry fs.u) (entry fs.v))] ∧
    ((execOutputs a b w interp).toOption.getD []).length = 4 ∧
    ((execOutputs a b w interp).toOption.getD [])[0]? = some (.scalarField fs.u) ∧
    ((execOutputs a b w interp).toOption.getD [])[1]? = some (.scalarField fs.v) ∧
    ((execOutputs a b w interp).toOption.getD [])[2]? = some (.scalarField fs.hgt) ∧
    ((execOutputs a b w interp).toOption.getD [])[3]? =
      some (.colorImage (hueField (entry fs.u) (entry fs.v))) := by
  have hx : execOutputs a b w interp =
      .ok [.scalarField fs.u, .scalarField fs.v, .scalarField fs.hgt,
        .colorImage (hueField (entry fs.u) (entry fs.v))] := by
    rw [execOutputs, hok]
    rfl
  exact ⟨hx, by rw [hx]; rfl, by rw [hx]; rfl, by rw [hx]; rfl, by rw [hx]; rfl,
    by rw [hx]; rfl⟩

/-- Claim C8 witness: the run on a pair of uniform 2 by 2 images, whose
single tile yields the zero triple. -/
theorem outputs_fixed_positional_order_witness :
    execOutputs ⟨2, 2, fun _ _ => 3⟩ ⟨2, 2, fun _ _ => 3⟩ 2 false =
      .ok [.scalarField [[(0 : ℚ)]], .scalarField [[(0 : ℚ)]], .scalarField [[(0 : ℚ)]],
        .colorImage (hueField (entry [[(0 : ℚ)]]) (entry [[(0 : ℚ)]]))] ∧
    ((execOutputs ⟨2, 2, fun _ _ => 3⟩ ⟨2, 2, fun _ _ => 3⟩ 2 false).toOption.getD []).length = 4 ∧
    ((execOutputs ⟨2, 2, fun _ _ => 3⟩ ⟨2, 2, fun _ _ => 3⟩ 2 false).toOption.getD [])[0]? =
      some (.scalarField [[(0 : ℚ)]]) ∧
    ((execOutputs ⟨2, 2, fun _ _ => 3⟩ ⟨2, 2, fun _ _ => 3⟩ 2 false).toOption.getD [])[1]? =
      some (.scalarField [[(0 : ℚ)]]) ∧
    ((execOutputs ⟨2, 2, fun _ _ => 3⟩ ⟨2, 2, fun _ _ => 3⟩ 2 false).toOption.getD [])[2]? =
      some (.scalarField [[(0 : ℚ)]]) ∧
    ((execOutputs ⟨2, 2, fun _ _ => 3⟩ ⟨2, 2, fun _ _ => 3⟩ 2 false).toOption.getD [])[3]? =
      some (.colorImage (hueField (entry [[(0 : ℚ)]]) (entry [[(0 : ℚ)]]))) := by
  have hok : runEngine ⟨2, 2, fun _ _ => 3⟩ ⟨2, 2, fun _ _ => 3⟩ 2 false =
      .ok ⟨1, 1, [[(0 : ℚ)]], [[(0 : ℚ)]], [[(0 : ℚ)]]⟩ := by
    rw [runEngine_valid ⟨2, 2, fun _ _ => 3⟩ ⟨2, 2, fun _ _ => 3⟩ 2 false rfl rfl
      (by decide) (by decide) (by decide)]
    have hpt : processTile ⟨2, 2, fun _ _ => 3⟩ ⟨2, 2, fun _ _ => 3⟩ 2 0 0 false =
        ((0 : ℚ), (0 : ℚ), (0 : ℚ)) := by
      rw [processTile, if_pos (Or.inl (by norm_num [patchVar, patchMean, patch,
        Finset.sum_product, Finset.sum_range_succ, Finset.sum_range_zero]))]
    have hmap : (rasterTiles (2 / 2) (2 / 2)).map
        (fun t => processTile ⟨2, 2, fun _ _ => 3⟩ ⟨2, 2, fun _ _ => 3⟩ 2 t.1 t.2 false) =
        [((0 : ℚ), (0 : ℚ), (0 : ℚ))] := by
      have hrt : rasterTiles (2 / 2) (2 / 2) = [(0, 0)] := rfl
      rw [hrt, List.map_cons, List.map_nil, hpt]
    rw [hmap]
    rfl
  exact outputs_fixed_positional_order ⟨2, 2, fun _ _ => 3⟩ ⟨2, 2, fun _ _ => 3⟩ 2 false
    ⟨1, 1, [[(0 : ℚ)]], [[(0 : ℚ)]], [[(0 : ℚ)]]⟩ hok

theorem corrSurface_apply (w : Nat) (pa pb : Nat → Nat → ℚ) (i j : Nat) :
    corrSurface w pa pb i j =
      nccScore w pa pb ((i : ℤ) - ((w : ℤ) - 1)) ((j : ℤ) - ((w : ℤ) - 1)) := rfl

theorem nccScore_eq_zero_of_degenerate (w : Nat) (pa pb : Nat → Nat → ℚ) (sx sy : ℤ)
    (h : sumSq (overlapPts w sx sy) (aSamples pa) = 0 ∨
      sumSq (overlapPts w sx sy) (bSamples pb sx sy) = 0) :
    nccScore w pa pb sx sy = 0 := by
  rw [nccScore, if_pos h]

theorem nccScore_lt_one_of_cov_nonpos (w : Nat) (pa pb : Nat → Nat → ℚ) (sx sy : ℤ)
    (h : covSum (overlapPts w sx sy) (aSamples pa) (bSamples pb sx sy) ≤ 0) :
    nccScore w pa pb sx sy < 1 := by
  rw [nccScore]
  split
  · norm_num
  · rename_i hne
    push_neg at hne
    have hva : 0 < sumSq (overlapPts w sx sy) (aSamples pa) :=
      lt_of_le_of_ne (Finset.sum_nonneg fun p _ => sq_nonneg _) (Ne.symm hne.1)
    have hvb : 0 < sumSq (overlapPts w sx sy) (bSamples pb sx sy) :=
      lt_of_le_of_ne (Finset.sum_nonneg fun p _ => sq_nonneg _) (Ne.symm hne.2)
    have hnum : covSum (overlapPts w sx sy) (aSamples pa) (bSamples pb sx sy) *
        |covSum (overlapPts w sx sy) (aSamples pa) (bSamples pb sx sy)| ≤ 0 := by
      nlinarith [abs_nonneg (covSum (overlapPts w sx sy) (aSamples pa) (bSamples pb sx sy))]
    have hdiv := div_nonpos_of_nonpos_of_nonneg hnum (le_of_lt (mul_pos hva hvb))
    linarith

/-- Claim C2 (amended): running the engine on the pair
`(A, A shifted by (k, l))` yields, for every interior tile whose patches
are non-degenerate (nonzero variance) and whose correlation surface has
a strict maximum at the shift `(k, l)`, a displacement within half a
pixel of `(k, l)` regardless of the interpolation flag; and the
correlation surface of such a tile attains the value 1 (the maximal
normalized score) at the shift `(k, l)`. -/
theorem shifted_pair_recovers_translation (a : Image) (k l : ℤ) (w r c ik jl : Nat)
    (interp : Bool)
    (h0 : w ≠ 0) (h1 : w ≤ a.width) (h2 : w ≤ a.height)
    (hr : r < a.height / w) (hc : c < a.width / w)
    (_hint : interiorTile a w r c k l)
    (hik : (ik : ℤ) = (w : ℤ) - 1 + k) (hjl : (jl : ℤ) = (w : ℤ) - 1 + l)
    (hikn : ik < 2 * w - 1) (hjln : jl < 2 * w - 1)
    (hva : patchVar w (patch a w r c) ≠ 0)
    (hvb : patchVar w (patch (shiftImage a k l) w r c) ≠ 0)
    (hova : sumSq (overlapPts w k l) (aSamples (patch a w r c)) ≠ 0)
    (hstrict : ∀ i j, i < 2 * w - 1 → j < 2 * w - 1 → (i, j) ≠ (ik, jl) →
      corrSurface w (patch a w r c) (patch (shiftImage a k l) w r c) i j <
        corrSurface w (patch a w r c) (patch (shiftImage a k l) w r c) ik jl) :
    corrSurface w (patch a w r c) (patch (shiftImage a k l) w r c) ik jl = 1 ∧
    |entry (outFields (runEngine a (shiftImage a k l) w interp)).u r c - (k : ℚ)| ≤ 1 / 2 ∧
    |entry (outFields (runEngine a (shiftImage a k l) w interp)).v r c - (l : ℚ)| ≤ 1 / 2 := by
  have hsurf1 : corrSurface w (patch a w r c) (patch (shiftImage a k l) w r c) ik jl = 1 := by
    rw [corrSurface_apply]
    have e1 : (ik : ℤ) - ((w : ℤ) - 1) = k := by omega
    have e2 : (jl : ℤ) - ((w : ℤ) - 1) = l := by omega
    rw [e1, e2]
    exact nccScore_shift_eq_one a w r c k l hr hc hova
  have hentries := run_entries a (shiftImage a k l) w interp r c rfl rfl h0 h1 h2 hr hc
  have hpeak := processTile_strict_peak a (shiftImage a k l) w r c ik jl interp
    (by omega) hikn hjln hva hvb hstrict
  have hcast : ((ik : ℚ) - ((w : ℚ) - 1)) = (k : ℚ) := by
    have hq := congrArg (fun z : ℤ => (z : ℚ)) hik
    push_cast at hq
    linarith
  have hcast2 : ((jl : ℚ) - ((w : ℚ) - 1)) = (l : ℚ) := by
    have hq := congrArg (fun z : ℤ => (z : ℚ)) hjl
    push_cast at hq
    linarith
  refine ⟨hsurf1, ?_, ?_⟩
  · rw [hentries.1, ← hcast]
    exact hpeak.1
  · rw [hentries.2.1, ← hcast2]
    exact hpeak.2

/-- Claim C2 counterexample: the claim as frozen quantifies over every
image; on the uniform 4 by 4 image of intensity 5 shifted by `(1, 0)`,
tile `(0, 1)` is interior, yet the engine returns displacement 0 for it
(the zero-variance policy of section 4.2), which is not within half a
pixel of the true translation 1. -/
theorem shifted_pair_recovers_translation_cex :
    interiorTile ⟨4, 4, fun _ _ => 5⟩ 2 0 1 1 0 ∧
    entry (outFields (runEngine ⟨4, 4, fun _ _ => 5⟩
      (shiftImage ⟨4, 4, fun _ _ => 5⟩ 1 0) 2 true)).u 0 1 = 0 ∧
    ¬ (|(0 : ℚ) - ((1 : ℤ) : ℚ)| ≤ 1 / 2) := by
  refine ⟨by constructor <;> [decide; (constructor <;> [decide; (constructor <;> decide)])],
    ?_, by rw [abs_of_nonpos (by norm_num)]; norm_num⟩
  have hpt : ∀ r c : Nat, processTile ⟨4, 4, fun _ _ => 5⟩
      (shiftImage ⟨4, 4, fun _ _ => 5⟩ 1 0) 2 r c true = ((0 : ℚ), (0 : ℚ), (0 : ℚ)) := by
    intro r c
    rw [processTile, if_pos (Or.inl (by norm_num [patchVar, patchMean, patch,
      Finset.sum_product, Finset.sum_range_succ, Finset.sum_range_zero]))]
  have hval := runEngine_valid ⟨4, 4, fun _ _ => 5⟩ (shiftImage ⟨4, 4, fun _ _ => 5⟩ 1 0) 2 true
    rfl rfl (by decide) (by decide) (by decide)
  have hentry := run_entries ⟨4, 4, fun _ _ => 5⟩ (shiftImage ⟨4, 4, fun _ _ => 5⟩ 1 0) 2 true
    0 1 rfl rfl (by decide) (by decide) (by decide) (by decide) (by decide)
  rw [hentry.1, hpt 0 1]

/-- Claim C2 witness: the 2 by 2 checkerboard against itself (zero
shift); every non-center score of the correlation surface is strictly
below the center score, and the recovered displacement is within half a
pixel of the translation under either interpolation setting. -/
theorem shifted_pair_recovers_translation_witness :
    (corrSurface 2 (patch chk 2 0 0) (patch (shiftImage chk 0 0) 2 0 0) 1 1 = 1 ∧
      |entry (outFields (runEngine chk (shiftImage chk 0 0) 2 true)).u 0 0 - ((0 : ℤ) : ℚ)| ≤ 1 / 2 ∧
      |entry (outFields (runEngine chk (shiftImage chk 0 0) 2 true)).v 0 0 - ((0 : ℤ) : ℚ)| ≤ 1 / 2) ∧
    (corrSurface 2 (patch chk 2 0 0) (patch (shiftImage chk 0 0) 2 0 0) 1 1 = 1 ∧
      |entry (outFields (runEngine chk (shiftImage chk 0 0) 2 false)).u 0 0 - ((0 : ℤ) : ℚ)| ≤ 1 / 2 ∧
      |entry (outFields (runEngine chk (shiftImage chk 0 0) 2 false)).v 0 0 - ((0 : ℤ) : ℚ)| ≤ 1 / 2) := by
  have hva : patchVar 2 (patch chk 2 0 0) ≠ 0 := by
    norm_num [patchVar, patchMean, patch, chk, Finset.sum_product,
      Finset.sum_range_succ, Finset.sum_range_zero]
  have hvb : patchVar 2 (patch (shiftImage chk 0 0) 2 0 0) ≠ 0 := by
    norm_num [patchVar, patchMean, patch, chk, shiftImage, Finset.sum_product,
      Finset.sum_range_succ, Finset.sum_range_zero]
  have hOfull : overlapPts 2 0 0 = {(0, 0), (0, 1), (1, 0), (1, 1)} := by decide
  have hcardNat : (overlapPts 2 0 0).card = 4 := by rw [hOfull]; decide
  have hcard : ((overlapPts 2 0 0).card : ℚ) = 4 := by rw [hcardNat]; norm_num
  have hsum : ∑ q ∈ overlapPts 2 0 0, aSamples (patch chk 2 0 0) q = 2 := by
    rw [hOfull, Finset.sum_insert (by decide), Finset.sum_insert (by decide),
      Finset.sum_insert (by decide), Finset.sum_singleton]
    norm_num [aSamples, patch, chk]
  have hc00 : centered (overlapPts 2 0 0) (aSamples (patch chk 2 0 0)) (0, 0) = -(1 / 2) := by
    rw [centered, hsum, hcard]
    norm_num [aSamples, patch, chk]
  have hova : sumSq (overlapPts 2 0 0) (aSamples (patch chk 2 0 0)) ≠ 0 := by
    have hle : centered (overlapPts 2 0 0) (aSamples (patch chk 2 0 0)) (0, 0) ^ 2 ≤
        sumSq (overlapPts 2 0 0) (aSamples (patch chk 2 0 0)) := by
      rw [sumSq]
      exact @Finset.single_le_sum (Nat × Nat) ℚ _
        (fun p => centered (overlapPts 2 0 0) (aSamples (patch chk 2 0 0)) p ^ 2)
        (overlapPts 2 0 0) (fun p _ => sq_nonneg _) (0, 0) (by rw [hOfull]; decide)
    rw [hc00] at hle
    intro hzero
    rw [hzero] at hle
    norm_num at hle
  have hsurf11 : corrSurface 2 (patch chk 2 0 0) (patch (shiftImage chk 0 0) 2 0 0) 1 1 = 1 := by
    rw [corrSurface_apply]
    simp only [Nat.cast_ofNat, Nat.cast_one, Nat.cast_zero]
    rw [show ((1 : ℤ) - ((2 : ℤ) - 1)) = 0 from by decide]
    exact nccScore_shift_eq_one chk 2 0 0 0 0 (by decide) (by decide) hova
  have hstrict : ∀ i j, i < 2 * 2 - 1 → j < 2 * 2 - 1 → (i, j) ≠ (1, 1) →
      corrSurface 2 (patch chk 2 0 0) (patch (shiftImage chk 0 0) 2 0 0) i j <
        corrSurface 2 (patch chk 2 0 0) (patch (shiftImage chk 0 0) 2 0 0) 1 1 := by
    intro i j hi hj hne
    rw [hsurf11]
    interval_cases i <;> interval_cases j
    · -- (0, 0): single-point overlap
      rw [corrSurface_apply]
      simp only [Nat.cast_ofNat, Nat.cast_one, Nat.cast_zero]
      rw [nccScore_eq_zero_of_degenerate 2 _ _ _ _ (Or.inl (by
        rw [show overlapPts 2 ((0 : ℤ) - ((2 : ℤ) - 1)) ((0 : ℤ) - ((2 : ℤ) - 1)) = {(1, 1)}
          from by decide]
        simp only [sumSq, centered, aSamples, Finset.sum_singleton, Finset.card_singleton]
        norm_num))]
      norm_num
    · -- (0, 1): two-point overlap, anti-correlated
      rw [corrSurface_apply]
      simp only [Nat.cast_ofNat, Nat.cast_one, Nat.cast_zero]
      refine nccScore_lt_one_of_cov_nonpos 2 _ _ _ _ ?_
      rw [show overlapPts 2 ((0 : ℤ) - ((2 : ℤ) - 1)) ((1 : ℤ) - ((2 : ℤ) - 1)) = {(1, 0), (1, 1)}
        from by decide]
      simp only [covSum, centered, aSamples, bSamples,
        Finset.sum_pair (show ((1, 0) : Nat × Nat) ≠ (1, 1) from by decide),
        Finset.card_pair (show ((1, 0) : Nat × Nat) ≠ (1, 1) from by decide)]
      norm_num [patch, chk, shiftImage]
    · -- (0, 2)
      rw [corrSurface_apply]
      simp only [Nat.cast_ofNat, Nat.cast_one, Nat.cast_zero]
      rw [nccScore_eq_zero_of_degenerate 2 _ _ _ _ (Or.inl (by
        rw [show overlapPts 2 ((0 : ℤ) - ((2 : ℤ) - 1)) ((2 : ℤ) - ((2 : ℤ) - 1)) = {(1, 0)}
          from by decide]
        simp only [sumSq, centered, aSamples, Finset.sum_singleton, Finset.card_singleton]
        norm_num))]
      norm_num
    · -- (1, 0)
      rw [corrSurface_apply]
      simp only [Nat.cast_ofNat, Nat.cast_one, Nat.cast_zero]
      refine nccScore_lt_one_of_cov_nonpos 2 _ _ _ _ ?_
      rw [show overlapPts 2 ((1 : ℤ) - ((2 : ℤ) - 1)) ((0 : ℤ) - ((2 : ℤ) - 1)) = {(0, 1), (1, 1)}
        from by decide]
      simp only [covSum, centered, aSamples, bSamples,
        Finset.sum_pair (show ((0, 1) : Nat × Nat) ≠ (1, 1) from by decide),
        Finset.card_pair (show ((0, 1) : Nat × Nat) ≠ (1, 1) from by decide)]
      norm_num [patch, chk, shiftImage]
    · -- (1, 1): excluded by hne
      exact absurd rfl hne
    · -- (1, 2)
      rw [corrSurface_apply]
      simp only [Nat.cast_ofNat, Nat.cast_one, Nat.cast_zero]
      refine nccScore_lt_one_of_cov_nonpos 2 _ _ _ _ ?_
      rw [show overlapPts 2 ((1 : ℤ) - ((2 : ℤ) - 1)) ((2 : ℤ) - ((2 : ℤ) - 1)) = {(0, 0), (1, 0)}
        from by decide]
      simp only [covSum, centered, aSamples, bSamples,
        Finset.sum_pair (show ((0, 0) : Nat × Nat) ≠ (1, 0) from by decide),
        Finset.card_pair (show ((0, 0) : Nat × Nat) ≠ (1, 0) from by decide)]
      norm_num [patch, chk, shiftImage]
    · -- (2, 0)
      rw [corrSurface_apply]
      simp only [Nat.cast_ofNat, Nat.cast_one, Nat.cast_zero]
      rw [nccScore_eq_zero_of_degenerate 2 _ _ _ _ (Or.inl (by
        rw [show overlapPts 2 ((2 : ℤ) - ((2 : ℤ) - 1)) ((0 : ℤ) - ((2 : ℤ) - 1)) = {(0, 1)}
          from by decide]
        simp only [sumSq, centered, aSamples, Finset.sum_singleton, Finset.card_singleton]
        norm_num))]
      norm_num
    · -- (2, 1)
      rw [corrSurface_apply]
      simp only [Nat.cast_ofNat, Nat.cast_one, Nat.cast_zero]
      refine nccScore_lt_one_of_cov_nonpos 2 _ _ _ _ ?_
      rw [show overlapPts 2 ((2 : ℤ) - ((2 : ℤ) - 1)) ((1 : ℤ) - ((2 : ℤ) - 1)) = {(0, 0), (0, 1)}
        from by decide]
      simp only [covSum, centered, aSamples, bSamples,
        Finset.sum_pair (show ((0, 0) : Nat × Nat) ≠ (0, 1) from by decide),
        Finset.card_pair (show ((0, 0) : Nat × Nat) ≠ (0, 1) from by decide)]
      norm_num [patch, chk, shiftImage]
    · -- (2, 2)
      rw [corrSurface_apply]
      simp only [Nat.cast_ofNat, Nat.cast_one, Nat.cast_zero]
      rw [nccScore_eq_zero_of_degenerate 2 _ _ _ _ (Or.inl (by
        rw [show overlapPts 2 ((2 : ℤ) - ((2 : ℤ) - 1)) ((2 : ℤ) - ((2 : ℤ) - 1)) = {(0, 0)}
          from by decide]
        simp only [sumSq, centered, aSamples, Finset.sum_singleton, Finset.card_singleton]
        norm_num))]
      norm_num
  exact ⟨shifted_pair_recovers_translation chk 0 0 2 0 0 1 1 true (by decide) (by decide)
      (by decide) (by decide) (by decide) ⟨by decide, by decide, by decide, by decide⟩
      (by decide) (by decide) (by decide) (by decide) hva hvb hova hstrict,
    shifted_pair_recovers_translation chk 0 0 2 0 0 1 1 false (by decide) (by decide)
      (by decide) (by decide) (by decide) ⟨by decide, by decide, by decide, by decide⟩
      (by decide) (by decide) (by decide) (by decide) hva hvb hova hstrict⟩

end PIV
